import Mathlib

/-!
Shallow embedding of two utilities from tools/util.py of this repository:
the wildcard pattern matcher `pattern_match` (lines 192-215) and the
pseudo-terminal capture routine `tty_capture` (lines 461-492).  Strings are
embedded as `List Char`, bytes as `Nat`, Python exceptions as `none`.
-/

/-- Python str.find translated to lists of characters: the index of the
leftmost occurrence of `sub` in `s`, or `none` when `sub` does not occur
(Python returns -1 there).  Python's find of an empty needle returns 0. -/
def pyFind (s sub : List Char) : Option Nat :=
  if sub.isPrefixOf s then some 0
  else
    match s with
    | [] => none
    | _ :: t => Option.map (fun n => n + 1) (pyFind t sub)

/-- Python str.split(pattern, sep) for lists of characters: repeatedly cut at
the leftmost occurrence of `sep`.  When `sep` is nonempty, every cut removes
at least `sep.length ≥ 1` characters, so `s.length + 1` steps of fuel always
suffice and the fuel never runs out; the fuel only guards the empty-separator
case, which Python rejects and which `pattern_match` tests for before
splitting. -/
def pySplitFuel (sep : List Char) : Nat → List Char → List (List Char)
  | 0, s => [s]
  | fuel + 1, s =>
    match pyFind s sep with
    | none => [s]
    | some i => s.take i :: pySplitFuel sep fuel (s.drop (i + sep.length))

/-- Python str.split(s, sep) for a nonempty separator. -/
def pySplit (sep s : List Char) : List (List Char) :=
  pySplitFuel sep (s.length + 1) s

/-- The loop of pattern_match (util.py lines 206-215), entered with
`parts[1:]` and the remainder of the actual string after the prefix check.
At the last part, an empty part or a lone newline succeeds immediately;
otherwise each part must be found (leftmost occurrence) and consumed, and
after consuming the last part the remainder must be empty. -/
def matchLoop : List (List Char) → List Char → Bool
  | [], s => decide (s = [])
  | [p], s =>
    if p = [] ∨ p = ['\n'] then true
    else
      match pyFind s p with
      | none => false
      | some i => matchLoop [] (s.drop (i + p.length))
  | p :: q :: rest, s =>
    match pyFind s p with
    | none => false
    | some i => matchLoop (q :: rest) (s.drop (i + p.length))

/-- The default wildcard token of pattern_match. -/
def WILDCARD : List Char := ['[', 'W', 'I', 'L', 'D', 'C', 'A', 'R', 'D', ']']

/-- pattern_match from util.py lines 192-215.  `none` models a raised Python
exception: str.split raises ValueError on an empty separator, and the
empty-parts arm (unreachable, since split never returns an empty list) would
raise IndexError at `parts[0]`. -/
def pattern_match (pattern string wildcard : List Char) : Option Bool :=
  if pattern = wildcard then some true
  else if wildcard = [] then none
  else
    match pySplit wildcard pattern with
    | [] => none
    | [_] => some (decide (pattern = string))
    | p0 :: rest =>
      if p0.isPrefixOf string then some (matchLoop rest (string.drop p0.length))
      else some false

/-- Written after the spec's words (section 4.1, step 3): consume the
intermediate anchor segments left to right, each at its leftmost occurrence
in the remaining actual text; `none` when some anchor is not found. -/
def specConsumeAnchors : List (List Char) → List Char → Option (List Char)
  | [], s => some s
  | p :: rest, s =>
    match pyFind s p with
    | none => none
    | some i => specConsumeAnchors rest (s.drop (i + p.length))

/-- Treatment of the final segment: empty or a lone newline succeeds
unconditionally; otherwise its leftmost occurrence must exist and consuming
through it must exhaust the remaining actual text. -/
def lastSegCheck (p s : List Char) : Bool :=
  if p = [] ∨ p = ['\n'] then true
  else
    match pyFind s p with
    | none => false
    | some i => decide (s.drop (i + p.length) = [])

/-- Unfolding of the three-argument arm of `matchLoop`. -/
lemma matchLoop_cons_cons (p q : List Char) (rest : List (List Char)) (s : List Char) :
    matchLoop (p :: q :: rest) s =
      match pyFind s p with
      | none => false
      | some i => matchLoop (q :: rest) (s.drop (i + p.length)) := rfl

/-- The loop of pattern_match factors as: consume the anchors before the last
segment (spec section 4.1 step 3), then apply the final-segment check. -/
lemma matchLoop_append_last (mid : List (List Char)) (last : List Char) :
    ∀ s, matchLoop (mid ++ [last]) s =
      match specConsumeAnchors mid s with
      | none => false
      | some s2 => lastSegCheck last s2 := by
  induction mid with
  | nil =>
    intro s
    show matchLoop [last] s = lastSegCheck last s
    by_cases h : last = [] ∨ last = ['\n']
    · simp only [matchLoop, lastSegCheck, if_pos h]
    · simp only [matchLoop, lastSegCheck, if_neg h]
  | cons p mid ih =>
    intro s
    obtain ⟨q, r2, hqr⟩ : ∃ q r2, mid ++ [last] = q :: r2 := by
      cases mid with
      | nil => exact ⟨last, [], rfl⟩
      | cons a t => exact ⟨a, t ++ [last], rfl⟩
    rw [List.cons_append, hqr, matchLoop_cons_cons, ← hqr]
    cases hf : pyFind s p with
    | none => simp only [specConsumeAnchors, hf]
    | some i => simp only [specConsumeAnchors, hf, ih]

/-- An occurrence reported by pyFind fits inside the searched string. -/
lemma pyFind_some_le {s sub : List Char} {i : Nat} (h : pyFind s sub = some i) :
    i + sub.length ≤ s.length := by
  induction s generalizing i with
  | nil =>
    rw [pyFind] at h
    by_cases hp : sub.isPrefixOf [] = true
    · rw [if_pos hp] at h
      injection h with h
      have hs : sub = [] := List.prefix_nil.mp (List.isPrefixOf_iff_prefix.mp hp)
      simp [hs, ← h]
    · rw [if_neg hp] at h
      exact Option.noConfusion h
  | cons c t ih =>
    rw [pyFind] at h
    by_cases hp : sub.isPrefixOf (c :: t) = true
    · rw [if_pos hp] at h
      injection h with h
      have hs := (List.isPrefixOf_iff_prefix.mp hp).length_le
      simp only [List.length_cons] at hs ⊢
      omega
    · rw [if_neg hp] at h
      obtain ⟨j, hj, hji⟩ := Option.map_eq_some'.mp h
      have := ih hj
      simp only [List.length_cons]
      omega

/-- The fuel of pySplitFuel is irrelevant as soon as it exceeds the length
of the string being split, for a nonempty separator. -/
lemma pySplitFuel_fuel_irrelevant (sep : List Char) (hsep : sep ≠ []) :
    ∀ (n : Nat) (s : List Char), s.length ≤ n → ∀ f1 f2 : Nat,
      s.length < f1 → s.length < f2 → pySplitFuel sep f1 s = pySplitFuel sep f2 s := by
  intro n
  induction n with
  | zero =>
    intro s hs f1 f2 h1 h2
    obtain ⟨k1, rfl⟩ : ∃ k1, f1 = k1 + 1 := ⟨f1 - 1, by omega⟩
    obtain ⟨k2, rfl⟩ : ∃ k2, f2 = k2 + 1 := ⟨f2 - 1, by omega⟩
    simp only [pySplitFuel]
    cases hf : pyFind s sep with
    | none => rfl
    | some i =>
      have hle := pyFind_some_le hf
      have hsl : 0 < sep.length := List.length_pos.mpr hsep
      omega
  | succ n ih =>
    intro s hs f1 f2 h1 h2
    obtain ⟨k1, rfl⟩ : ∃ k1, f1 = k1 + 1 := ⟨f1 - 1, by omega⟩
    obtain ⟨k2, rfl⟩ : ∃ k2, f2 = k2 + 1 := ⟨f2 - 1, by omega⟩
    simp only [pySplitFuel]
    cases hf : pyFind s sep with
    | none => rfl
    | some i =>
      have hle := pyFind_some_le hf
      have hsl : 0 < sep.length := List.length_pos.mpr hsep
      have hdl : (s.drop (i + sep.length)).length = s.length - (i + sep.length) :=
        List.length_drop _ _
      show List.take i s :: pySplitFuel sep k1 (s.drop (i + sep.length)) =
        List.take i s :: pySplitFuel sep k2 (s.drop (i + sep.length))
      rw [ih (s.drop (i + sep.length)) (by omega) k1 k2 (by omega) (by omega)]

/-- The fuel-based pySplit satisfies the recurrence of Python's split for a
nonempty separator: cut at the leftmost occurrence and recurse on the rest,
so the fuel device is invisible. -/
lemma pySplit_unfold (sep s : List Char) (hsep : sep ≠ []) :
    pySplit sep s =
      match pyFind s sep with
      | none => [s]
      | some i => s.take i :: pySplit sep (s.drop (i + sep.length)) := by
  show pySplitFuel sep (s.length + 1) s = _
  simp only [pySplitFuel]
  cases hf : pyFind s sep with
  | none => rfl
  | some i =>
    have hle := pyFind_some_le hf
    have hsl : 0 < sep.length := List.length_pos.mpr hsep
    have hdl : (s.drop (i + sep.length)).length = s.length - (i + sep.length) :=
      List.length_drop _ _
    show List.take i s :: pySplitFuel sep s.length (s.drop (i + sep.length)) =
      List.take i s :: pySplitFuel sep ((s.drop (i + sep.length)).length + 1) (s.drop (i + sep.length))
    rw [pySplitFuel_fuel_irrelevant sep hsep (s.drop (i + sep.length)).length _ le_rfl
      s.length ((s.drop (i + sep.length)).length + 1) (by omega) (by omega)]

/-- pySplit never returns an empty list of parts. -/
lemma pySplit_ne_nil (sep s : List Char) : pySplit sep s ≠ [] := by
  show pySplitFuel sep (s.length + 1) s ≠ []
  simp only [pySplitFuel]
  cases pyFind s sep <;> simp

/-- When the separator does not occur, pySplit returns the whole string as
the single part. -/
lemma pySplit_of_find_none {sep s : List Char} (h : pyFind s sep = none) :
    pySplit sep s = [s] := by
  show pySplitFuel sep (s.length + 1) s = [s]
  simp only [pySplitFuel, h]

/-- C7: when the pattern equals the wildcard token exactly, pattern_match
returns true for every string, including the empty string. -/
theorem c7_wildcard_pattern_matches_everything (wildcard s : List Char) :
    pattern_match wildcard s wildcard = some true := by
  simp [pattern_match]

/-- C7 witness at a concrete string. -/
theorem c7_wildcard_pattern_matches_everything_witness :
    pattern_match WILDCARD ['q'] WILDCARD = some true :=
  c7_wildcard_pattern_matches_everything WILDCARD ['q']

/-- C8: when the pattern contains no occurrence of the wildcard token,
pattern_match returns true exactly when the pattern equals the string. -/
theorem c8_no_wildcard_exact_equality (p s : List Char)
    (h : pyFind p WILDCARD = none) :
    pattern_match p s WILDCARD = some (decide (p = s)) := by
  have hpw : p ≠ WILDCARD := by
    intro he
    rw [he, show pyFind WILDCARD WILDCARD = some 0 from by decide] at h
    exact Option.noConfusion h
  rw [pattern_match, if_neg hpw, if_neg (show ¬WILDCARD = [] by decide),
    pySplit_of_find_none h]

/-- C8 witness at a concrete pattern and string. -/
theorem c8_no_wildcard_exact_equality_witness :
    pattern_match ['a', 'b', 'c'] ['a', 'b', 'c'] WILDCARD =
      some (decide (['a', 'b', 'c'] = ['a', 'b', 'c'])) :=
  c8_no_wildcard_exact_equality ['a', 'b', 'c'] ['a', 'b', 'c'] (by decide)

/-- C10: with an empty wildcard argument, pattern_match returns true when the
pattern is empty (it equals the wildcard), and raises (modelled as none,
ValueError from str.split on an empty separator) for every nonempty
pattern. -/
theorem c10_empty_wildcard (p s : List Char) :
    pattern_match p s [] = if p = [] then some true else none := by
  by_cases h : p = [] <;> simp [pattern_match, h]

/-- C10 witness at a concrete nonempty pattern. -/
theorem c10_empty_wildcard_witness :
    pattern_match ['a'] [] [] = if (['a'] : List Char) = [] then some true else none :=
  c10_empty_wildcard ['a'] []

/-- Unfolding of pattern_match when the pattern is not the wildcard token and
the split has at least two parts. -/
lemma pattern_match_of_split (pattern string p0 q : List Char)
    (r2 : List (List Char)) (hpw : pattern ≠ WILDCARD)
    (hsplit : pySplit WILDCARD pattern = p0 :: q :: r2) :
    pattern_match pattern string WILDCARD =
      if p0.isPrefixOf string then some (matchLoop (q :: r2) (string.drop p0.length))
      else some false := by
  rw [pattern_match, if_neg hpw, if_neg (show ¬WILDCARD = [] by decide), hsplit]

/-- A pattern whose split ends in a nonempty last part is not the token
itself (the token splits into two empty parts). -/
lemma ne_wildcard_of_split_last (pattern p0 : List Char) (mid : List (List Char))
    (last : List Char) (hsplit : pySplit WILDCARD pattern = p0 :: (mid ++ [last]))
    (h1 : last ≠ []) : pattern ≠ WILDCARD := by
  intro he
  rw [he, show pySplit WILDCARD WILDCARD = [[], []] from by decide] at hsplit
  have hlen := congrArg List.length hsplit
  simp only [List.length_cons, List.length_append, List.length_nil] at hlen
  have hmid : mid = [] := List.eq_nil_of_length_eq_zero (by omega)
  rw [hmid, List.nil_append] at hsplit
  injection hsplit with hp0 hrest
  injection hrest with hlast
  exact h1 hlast.symm

/-- C4: with at least one wildcard occurrence and a final segment that is
neither empty nor a lone newline, pattern_match succeeds exactly when the
first segment is a literal prefix, the intermediate anchors are consumed at
their leftmost occurrences, the final segment occurs in what remains, and
consuming through its leftmost occurrence exhausts the actual string; any
trailing content fails, as in the two listed examples. -/
theorem c4_final_segment_anchored :
    (∀ pattern string p0 mid last,
        pySplit WILDCARD pattern = p0 :: (mid ++ [last]) →
        last ≠ [] → last ≠ ['\n'] →
        (pattern_match pattern string WILDCARD = some true ↔
          (p0.isPrefixOf string = true ∧
            ∃ s2 i, specConsumeAnchors mid (string.drop p0.length) = some s2 ∧
              pyFind s2 last = some i ∧ s2.drop (i + last.length) = [])))
    ∧ pattern_match (WILDCARD ++ ['a', 'b', 'c']) ['x', 'y', 'z', 'a', 'b', 'c', 'd'] WILDCARD = some false
    ∧ pattern_match (WILDCARD ++ ['a', 'b', 'c']) ['x', 'y', 'z', 'a', 'b', 'c'] WILDCARD = some true := by
  refine ⟨?_, by decide, by decide⟩
  intro pattern string p0 mid last hsplit h1 h2
  have hpw := ne_wildcard_of_split_last pattern p0 mid last hsplit h1
  obtain ⟨q, r2, hqr⟩ : ∃ q r2, mid ++ [last] = q :: r2 := by
    cases mid with
    | nil => exact ⟨last, [], rfl⟩
    | cons a t => exact ⟨a, t ++ [last], rfl⟩
  rw [pattern_match_of_split pattern string p0 q r2 hpw (by rw [hsplit, hqr]), ← hqr,
    matchLoop_append_last]
  by_cases hpre : p0.isPrefixOf string = true
  · rw [if_pos hpre]
    simp only [hpre, true_and, Option.some.injEq]
    rcases hca : specConsumeAnchors mid (string.drop p0.length) with _ | s2
    · simp
    · simp only [Option.some.injEq, lastSegCheck,
        if_neg (show ¬(last = [] ∨ last = ['\n']) from by simp [h1, h2])]
      rcases hf : pyFind s2 last with _ | i
      · simp [hf]
      · simp [hf]
  · rw [if_neg hpre]
    simp [hpre]

/-- C4 witness: the characterization applied at a concrete pattern and
string. -/
theorem c4_final_segment_anchored_witness :
    pattern_match (WILDCARD ++ ['a', 'b', 'c']) ['x', 'y', 'z', 'a', 'b', 'c'] WILDCARD = some true ↔
      (([] : List Char).isPrefixOf ['x', 'y', 'z', 'a', 'b', 'c'] = true ∧
        ∃ s2 i, specConsumeAnchors [] (['x', 'y', 'z', 'a', 'b', 'c'].drop ([] : List Char).length) = some s2 ∧
          pyFind s2 ['a', 'b', 'c'] = some i ∧ s2.drop (i + ['a', 'b', 'c'].length) = []) :=
  c4_final_segment_anchored.1 (WILDCARD ++ ['a', 'b', 'c']) ['x', 'y', 'z', 'a', 'b', 'c']
    [] [] ['a', 'b', 'c'] (by decide) (by decide) (by decide)

/-- C5: with at least one wildcard occurrence, the first segment must be a
literal prefix of the actual string, and each intermediate anchor must be
found (leftmost, consumed through its end) in the remainder; a missing
prefix or anchor makes pattern_match return false, as in the listed
examples. -/
theorem c5_anchor_requirements :
    (∀ pattern string p0 rest,
        pySplit WILDCARD pattern = p0 :: rest →
        rest ≠ [] →
        ((p0.isPrefixOf string = false → pattern_match pattern string WILDCARD = some false)
          ∧ (∀ mid last, rest = mid ++ [last] →
              specConsumeAnchors mid (string.drop p0.length) = none →
              pattern_match pattern string WILDCARD = some false)))
    ∧ pattern_match (['f', 'o', 'o'] ++ WILDCARD ++ ['b', 'a', 'r']) ['x', 'f', 'o', 'o', 'b', 'a', 'z', 'b', 'a', 'r'] WILDCARD = some false
    ∧ pattern_match (['f', 'o', 'o'] ++ WILDCARD ++ ['b', 'a', 'r']) ['f', 'o', 'o', 'b', 'a', 'z', 'b', 'a', 'r'] WILDCARD = some true
    ∧ pattern_match (['f', 'o', 'o'] ++ WILDCARD ++ ['b', 'a', 'r']) ['f', 'o', 'o', 'b', 'a', 'r'] WILDCARD = some true := by
  refine ⟨?_, by decide, by decide, by decide⟩
  intro pattern string p0 rest hsplit hr
  by_cases hpw : pattern = WILDCARD
  · rw [hpw, show pySplit WILDCARD WILDCARD = [[], []] from by decide] at hsplit
    injection hsplit with hp0 hrest
    constructor
    · intro hpre
      rw [← hp0, show ([] : List Char).isPrefixOf string = true from by cases string <;> rfl] at hpre
      exact Bool.noConfusion hpre
    · intro mid last hml hca
      rw [← hrest] at hml
      cases mid with
      | nil =>
        simp only [specConsumeAnchors] at hca
        exact Option.noConfusion hca
      | cons a t =>
        have hlen := congrArg List.length hml
        simp only [List.length_cons, List.length_append, List.length_nil] at hlen
        omega
  · obtain ⟨q, r2, hqr⟩ : ∃ q r2, rest = q :: r2 := by
      cases rest with
      | nil => exact absurd rfl hr
      | cons a t => exact ⟨a, t, rfl⟩
    have hunf := pattern_match_of_split pattern string p0 q r2 hpw (by rw [hsplit, hqr])
    constructor
    · intro hpre
      rw [hunf, if_neg (by simp [hpre])]
    · intro mid last hml hca
      rw [hunf]
      by_cases hpre : p0.isPrefixOf string = true
      · rw [if_pos hpre, ← hqr, hml, matchLoop_append_last, hca]
      · rw [if_neg hpre]

/-- C5 witness: the prefix requirement applied at a concrete pattern and
string whose first segment is not a prefix. -/
theorem c5_anchor_requirements_witness :
    pattern_match (['f', 'o', 'o'] ++ WILDCARD ++ ['b', 'a', 'r']) ['x', 'f', 'o', 'o', 'b', 'a', 'z', 'b', 'a', 'r'] WILDCARD = some false :=
  (c5_anchor_requirements.1 (['f', 'o', 'o'] ++ WILDCARD ++ ['b', 'a', 'r'])
    ['x', 'f', 'o', 'o', 'b', 'a', 'z', 'b', 'a', 'r'] ['f', 'o', 'o'] [['b', 'a', 'r']]
    (by decide) (by decide)).1 (by decide)

/-- C6: with at least one wildcard occurrence and a final segment that is
empty or a lone newline, once the prefix and the intermediate anchors have
been consumed the match succeeds immediately, whatever suffix remains, as in
the listed example. -/
theorem c6_trivial_last_segment :
    (∀ pattern string p0 mid last,
        pySplit WILDCARD pattern = p0 :: (mid ++ [last]) →
        (last = [] ∨ last = ['\n']) →
        p0.isPrefixOf string = true →
        (∃ s2, specConsumeAnchors mid (string.drop p0.length) = some s2) →
        pattern_match pattern string WILDCARD = some true)
    ∧ pattern_match (['a'] ++ WILDCARD ++ ['b'] ++ WILDCARD) ['a', 'X', 'b', 'Y'] WILDCARD = some true := by
  refine ⟨?_, by decide⟩
  intro pattern string p0 mid last hsplit hlast hpre hex
  obtain ⟨s2, hca⟩ := hex
  by_cases hpw : pattern = WILDCARD
  · simp [pattern_match, hpw]
  · obtain ⟨q, r2, hqr⟩ : ∃ q r2, mid ++ [last] = q :: r2 := by
      cases mid with
      | nil => exact ⟨last, [], rfl⟩
      | cons a t => exact ⟨a, t ++ [last], rfl⟩
    rw [pattern_match_of_split pattern string p0 q r2 hpw (by rw [hsplit, hqr]), if_pos hpre,
      ← hqr, matchLoop_append_last, hca]
    simp only [lastSegCheck]
    rw [if_pos hlast]

/-- C6 witness: the trivial-last-segment rule applied at a concrete pattern
and string. -/
theorem c6_trivial_last_segment_witness :
    pattern_match (['a'] ++ WILDCARD ++ ['b'] ++ WILDCARD) ['a', 'X', 'b', 'Y'] WILDCARD = some true :=
  c6_trivial_last_segment.1 (['a'] ++ WILDCARD ++ ['b'] ++ WILDCARD) ['a', 'X', 'b', 'Y']
    ['a'] [['b']] [] (by decide) (Or.inl rfl) (by decide) ⟨['Y'], by decide⟩

/-- The two controlling descriptors polled by tty_capture's select call
(util.py line 479): mo carries the child's stdout, me its stderr. -/
inductive MFd where
  | mo
  | me
deriving DecidableEq

/-- The two output buffers res of tty_capture (util.py line 477), holding
the bytes read so far from each stream. -/
structure Res where
  stdout : List Nat
  stderr : List Nat
deriving DecidableEq

/-- fdmap (util.py line 469) restricted to the polled descriptors: append
freshly read bytes to the buffer the descriptor maps to. -/
def fdAppend (res : Res) (fd : MFd) (data : List Nat) : Res :=
  match fd with
  | MFd.mo => ⟨res.stdout ++ data, res.stderr⟩
  | MFd.me => ⟨res.stdout, res.stderr ++ data⟩

/-- The environment's behaviour at one loop iteration of tty_capture: the
polled descriptors select reports ready, in order, with the bytes os.read
returns from each (an empty list models a zero-byte read), whether p.poll()
reports that the child has exited, and the value of time.time(). -/
structure LoopEvent where
  ready : List (MFd × List Nat)
  pollExited : Bool
  now : Nat
deriving DecidableEq

/-- The inner read loop of tty_capture (util.py lines 481-485): read each
ready descriptor in order and append to its buffer; a zero-byte read breaks
out of the loop, leaving the remaining ready descriptors unread. -/
def readReady : Res → List (MFd × List Nat) → Res
  | res, [] => res
  | res, (fd, data) :: rest =>
    if data = [] then res
    else readReady (fdAppend res fd data) rest

/-- The polling loop of tty_capture (util.py lines 478-488), driven by an
oracle trace of loop events, with the deadline timeout_exact (line 471).
If select reported ready descriptors they are read and the loop repeats
without consulting the clock or the child's status; otherwise the loop
breaks exactly when the child has exited or the deadline has passed.
Returns the buffers and, when the loop breaks, the unconsumed tail of the
trace; none means the trace was exhausted with the loop still running. -/
def captureLoop (timeoutExact : Nat) : List LoopEvent → Res → Res × Option (List LoopEvent)
  | [], res => (res, none)
  | e :: rest, res =>
    if e.ready ≠ [] then captureLoop timeoutExact rest (readReady res e.ready)
    else if e.pollExited = true ∨ e.now > timeoutExact then (res, some rest)
    else captureLoop timeoutExact rest res

/-- The buffers accumulated by the polling loop over iterations that do not
break: an iteration with ready descriptors reads them (util.py lines
480-485), an iteration with none leaves the buffers unchanged. -/
def accumReads (res : Res) : List LoopEvent → Res
  | [] => res
  | e :: rest => accumReads (if e.ready ≠ [] then readReady res e.ready else res) rest

/-- The six pseudo-terminal descriptors of tty_capture (util.py lines
466-468): subordinate ends si/so/se handed to the child, controlling ends
mi/mo/me kept by the harness. -/
inductive PtyFd where
  | si
  | so
  | se
  | mi
  | mo
  | me
deriving DecidableEq

/-- Observable operating-system actions performed by tty_capture. -/
inductive OsAction where
  | openpty
  | spawnChild
  | writeInput
  | selectWait (fds : List MFd)
  | readFd (fd : MFd)
  | closeFd (fd : PtyFd)
  | waitChild
  | killChild
deriving DecidableEq

/-- The read actions of one iteration's inner loop (util.py lines 481-485):
a zero-byte read stops the iteration's reading. -/
def readActions : List (MFd × List Nat) → List OsAction
  | [] => []
  | (fd, data) :: rest =>
    OsAction.readFd fd :: (if data = [] then [] else readActions rest)

/-- The action trace of the polling loop: every iteration waits on the fixed
descriptor list [mo, me] (util.py line 479). -/
def loopActions (timeoutExact : Nat) : List LoopEvent → List OsAction
  | [] => []
  | e :: rest =>
    OsAction.selectWait [MFd.mo, MFd.me] ::
      (if e.ready ≠ [] then readActions e.ready ++ loopActions timeoutExact rest
       else if e.pollExited = true ∨ e.now > timeoutExact then []
       else loopActions timeoutExact rest)

/-- The descriptor-closing sequence of util.py lines 489-490, in program
order. -/
def closeSeq : List OsAction :=
  [OsAction.closeFd PtyFd.si, OsAction.closeFd PtyFd.so, OsAction.closeFd PtyFd.se,
   OsAction.closeFd PtyFd.mi, OsAction.closeFd PtyFd.mo, OsAction.closeFd PtyFd.me]

/-- The full action trace of tty_capture (util.py lines 461-492): allocate
three pseudo-terminal pairs, spawn the child, write the input bytes, run the
polling loop, close all six descriptors, then wait on the child. -/
def ttyCaptureActions (timeoutExact : Nat) (tr : List LoopEvent) : List OsAction :=
  [OsAction.openpty, OsAction.openpty, OsAction.openpty, OsAction.spawnChild, OsAction.writeInput] ++
    loopActions timeoutExact tr ++ closeSeq ++ [OsAction.waitChild]

/-- The loop outcome of tty_capture starting from the empty buffers of
util.py line 477. -/
def tty_capture (timeoutExact : Nat) (tr : List LoopEvent) : Res × Option (List LoopEvent) :=
  captureLoop timeoutExact tr ⟨[], []⟩

example : captureLoop 0 [⟨[(MFd.mo, [65])], false, 5⟩] ⟨[], []⟩ = (⟨[65], []⟩, none) := by decide
example : readReady ⟨[], []⟩ [(MFd.mo, []), (MFd.me, [66])] = ⟨[], []⟩ := by decide
example : tty_capture 10 [⟨[], false, 5⟩, ⟨[], false, 11⟩] = (⟨[], []⟩, some []) := by decide

/-- Whenever the polling loop breaks, it has consumed at least one event. -/
lemma captureLoop_rest_length (timeoutExact : Nat) :
    ∀ (tr : List LoopEvent) (res : Res) (rem : List LoopEvent),
      (captureLoop timeoutExact tr res).2 = some rem → rem.length < tr.length := by
  intro tr
  induction tr with
  | nil => intro res rem h; exact Option.noConfusion h
  | cons e rest ih =>
    intro res rem h
    simp only [captureLoop] at h
    by_cases h1 : e.ready ≠ []
    · rw [if_pos h1] at h
      exact Nat.lt_trans (ih _ _ h) (Nat.lt_succ_self _)
    · rw [if_neg h1] at h
      by_cases h2 : e.pollExited = true ∨ e.now > timeoutExact
      · rw [if_pos h2] at h
        injection h with h
        rw [← h]
        exact Nat.lt_succ_self _
      · rw [if_neg h2] at h
        exact Nat.lt_trans (ih _ _ h) (Nat.lt_succ_self _)

/-- C1 counterexample: at an iteration where the wall-clock deadline has
already passed (now 5 > timeout_exact 0) but a descriptor is still ready,
the loop reads the descriptor and keeps polling (the trace runs out with the
loop still live) instead of terminating; elapsed timeout alone does not
terminate the loop. -/
theorem c1_counterexample_timeout_with_ready_descriptor :
    captureLoop 0 [⟨[(MFd.mo, [65])], false, 5⟩] ⟨[], []⟩ = (⟨[65], []⟩, none) := by decide

/-- C1 amended: the polling loop terminates at a given iteration exactly
when select reports no ready descriptors at that iteration AND (the child
has exited or the wall-clock deadline has passed); a lapsed timeout alone
does not suffice while descriptors are ready. -/
theorem c1_amended_loop_termination (timeoutExact : Nat) (e : LoopEvent)
    (rest : List LoopEvent) (res : Res) :
    (captureLoop timeoutExact (e :: rest) res).2 = some rest ↔
      (e.ready = [] ∧ (e.pollExited = true ∨ e.now > timeoutExact)) := by
  constructor
  · intro h
    simp only [captureLoop] at h
    by_cases h1 : e.ready ≠ []
    · rw [if_pos h1] at h
      exact absurd (captureLoop_rest_length timeoutExact rest _ rest h) (lt_irrefl _)
    · by_cases h2 : e.pollExited = true ∨ e.now > timeoutExact
      · exact ⟨not_not.mp h1, h2⟩
      · rw [if_neg h1, if_neg h2] at h
        exact absurd (captureLoop_rest_length timeoutExact rest _ rest h) (lt_irrefl _)
  · intro ⟨h1, h2⟩
    simp only [captureLoop]
    rw [if_neg (by simp [h1]), if_pos h2]

/-- C1 amended witness: a concrete iteration with the child exited and no
ready descriptors terminates the loop. -/
theorem c1_amended_loop_termination_witness :
    (captureLoop 7 [⟨[], true, 0⟩] ⟨[], []⟩).2 = some [] ↔
      (([] : List (MFd × List Nat)) = [] ∧ (true = true ∨ 0 > 7)) :=
  c1_amended_loop_termination 7 ⟨[], true, 0⟩ [] ⟨[], []⟩

/-- A trace from a child that never exits, in which no iteration before e
breaks (each earlier poll either has ready descriptors to read or happens on
or before the deadline), makes the loop break exactly at e — the first quiet
poll past the deadline — carrying the buffers accumulated so far. -/
lemma captureLoop_breaks_at_first_quiet_deadline (timeoutExact : Nat)
    (e : LoopEvent) (rest : List LoopEvent) :
    ∀ (pre : List LoopEvent) (res : Res),
      (∀ x ∈ pre ++ e :: rest, x.pollExited = false) →
      (∀ x ∈ pre, x.ready ≠ [] ∨ x.now ≤ timeoutExact) →
      e.ready = [] → e.now > timeoutExact →
      captureLoop timeoutExact (pre ++ e :: rest) res = (accumReads res pre, some rest) := by
  intro pre
  induction pre with
  | nil =>
    intro res _ _ he1 he2
    simp only [List.nil_append, captureLoop, accumReads]
    rw [if_neg (by simp [he1]), if_pos (Or.inr he2)]
  | cons x pre ih =>
    intro res hnever hpre he1 he2
    have hx := hnever x (by simp)
    simp only [List.cons_append, captureLoop, accumReads]
    by_cases hr : x.ready ≠ []
    · rw [if_pos hr, if_pos hr]
      exact ih _ (fun y hy => hnever y (List.mem_cons_of_mem _ hy))
        (fun y hy => hpre y (List.mem_cons_of_mem _ hy)) he1 he2
    · rw [if_neg hr, if_neg hr, if_neg (show ¬(x.pollExited = true ∨ x.now > timeoutExact) from by
        rintro (hc | hc)
        · rw [hx] at hc
          exact Bool.noConfusion hc
        · rcases hpre x (by simp) with h | h
          · exact hr h
          · exact absurd h (not_le.mpr hc))]
      exact ih _ (fun y hy => hnever y (List.mem_cons_of_mem _ hy))
        (fun y hy => hpre y (List.mem_cons_of_mem _ hy)) he1 he2

/-- C2: for a command that sleeps past the timeout and never exits — the
child may emit output before going to sleep (the iterations of pre with
ready descriptors), and once it sleeps no further poll reports data — the
loop returns at the first quiet poll whose clock reading exceeds the
deadline: approximately timeout seconds, since polls are at most the 40 ms
select interval apart.  The result carries the partial (possibly empty)
output accumulated before the sleep, no further events are consumed, and
the routine then closes every descriptor it opened. -/
theorem c2_sleeping_child_times_out (timeoutExact : Nat) (pre : List LoopEvent)
    (e : LoopEvent) (rest : List LoopEvent)
    (hnever : ∀ x ∈ pre ++ e :: rest, x.pollExited = false)
    (hpre : ∀ x ∈ pre, x.ready ≠ [] ∨ x.now ≤ timeoutExact)
    (he1 : e.ready = []) (he2 : e.now > timeoutExact) :
    tty_capture timeoutExact (pre ++ e :: rest) = (accumReads ⟨[], []⟩ pre, some rest) :=
  captureLoop_breaks_at_first_quiet_deadline timeoutExact e rest pre ⟨[], []⟩
    hnever hpre he1 he2

/-- C2 witness: deadline 10; the child prints one byte at time 3, is quiet
at time 6, and the quiet poll at time 11 returns the partial buffer. -/
theorem c2_sleeping_child_times_out_witness :
    tty_capture 10 [⟨[(MFd.mo, [72])], false, 3⟩, ⟨[], false, 6⟩, ⟨[], false, 11⟩] =
      (⟨[72], []⟩, some []) :=
  c2_sleeping_child_times_out 10 [⟨[(MFd.mo, [72])], false, 3⟩, ⟨[], false, 6⟩]
    ⟨[], false, 11⟩ [] (by decide) (by decide) (by decide) (by decide)

/-- C3 counterexample: in an iteration whose ready list is mo (a zero-byte
read) followed by me (which has a byte available), the inner loop breaks on
mo's empty read and me's byte is never appended; and over a two-iteration
trace the readiness wait after the zero-byte read still polls mo — the
closed descriptor is not excluded from later waits. -/
theorem c3_counterexample_zero_read :
    readReady ⟨[], []⟩ [(MFd.mo, []), (MFd.me, [66])] = ⟨[], []⟩ ∧
    loopActions 100 [⟨[(MFd.mo, [])], false, 0⟩, ⟨[(MFd.me, [66])], false, 0⟩] =
      [OsAction.selectWait [MFd.mo, MFd.me], OsAction.readFd MFd.mo,
       OsAction.selectWait [MFd.mo, MFd.me], OsAction.readFd MFd.me] := by decide

/-- No readiness wait occurs inside an iteration's inner read loop. -/
lemma readActions_select_not_mem (l : List (MFd × List Nat)) (fds : List MFd) :
    OsAction.selectWait fds ∉ readActions l := by
  induction l with
  | nil => simp [readActions]
  | cons p rest ih =>
    obtain ⟨pf, pd⟩ := p
    simp only [readActions, List.mem_cons]
    rintro (h | h)
    · exact OsAction.noConfusion h
    · by_cases hd : pd = []
      · rw [if_pos hd] at h
        exact List.not_mem_nil _ h
      · rw [if_neg hd] at h
        exact ih h

/-- C3 amended: a zero-byte read breaks out of the current iteration's inner
read loop, so the remaining ready descriptors of that same iteration are NOT
read (the buffers are exactly those accumulated before the zero-byte read),
and the descriptor is NOT excluded from later polls: every readiness wait of
the whole run is over the fixed list [mo, me]. -/
theorem c3_amended_zero_read_behavior :
    (∀ (res : Res) (pre : List (MFd × List Nat)) (fd : MFd) (rest : List (MFd × List Nat)),
        (∀ p ∈ pre, p.2 ≠ ([] : List Nat)) →
        readReady res (pre ++ (fd, ([] : List Nat)) :: rest) = readReady res pre)
    ∧ (∀ (timeoutExact : Nat) (tr : List LoopEvent) (fds : List MFd),
        OsAction.selectWait fds ∈ loopActions timeoutExact tr → fds = [MFd.mo, MFd.me]) := by
  constructor
  · intro res pre fd rest
    induction pre generalizing res with
    | nil =>
      intro _
      simp [readReady]
    | cons p pre ih =>
      intro hne
      obtain ⟨pf, pd⟩ := p
      have hpd : pd ≠ [] := hne (pf, pd) (by simp)
      simp only [List.cons_append, readReady]
      rw [if_neg hpd, if_neg hpd]
      exact ih _ (fun q hq => hne q (List.mem_cons_of_mem _ hq))
  · intro timeoutExact tr
    induction tr with
    | nil => intro fds h; exact absurd h (List.not_mem_nil _)
    | cons e rest ih =>
      intro fds h
      simp only [loopActions, List.mem_cons] at h
      rcases h with h | h
      · simpa using h
      · by_cases h1 : e.ready ≠ []
        · rw [if_pos h1] at h
          rcases List.mem_append.mp h with h | h
          · exact absurd h (readActions_select_not_mem e.ready fds)
          · exact ih fds h
        · rw [if_neg h1] at h
          by_cases h2 : e.pollExited = true ∨ e.now > timeoutExact
          · rw [if_pos h2] at h
            exact absurd h (List.not_mem_nil _)
          · rw [if_neg h2] at h
            exact ih fds h

/-- C3 amended witness: concrete instances of both parts — a zero-byte read
on me discards it while the earlier mo read stays, and a concrete trace's
readiness wait is over [mo, me]. -/
theorem c3_amended_zero_read_behavior_witness :
    readReady ⟨[], []⟩ [(MFd.mo, [65]), (MFd.me, [])] = readReady ⟨[], []⟩ [(MFd.mo, [65])] ∧
    ([MFd.mo] : List MFd) ++ [MFd.me] = [MFd.mo, MFd.me] :=
  ⟨c3_amended_zero_read_behavior.1 ⟨[], []⟩ [(MFd.mo, [65])] MFd.me [] (by decide),
   c3_amended_zero_read_behavior.2 100 [⟨[(MFd.mo, [65])], false, 0⟩] ([MFd.mo] ++ [MFd.me]) (by decide)⟩

/-- Every action of the inner read loop is a read. -/
lemma readActions_shape (l : List (MFd × List Nat)) :
    ∀ a ∈ readActions l, ∃ fd, a = OsAction.readFd fd := by
  induction l with
  | nil => simp [readActions]
  | cons p rest ih =>
    obtain ⟨pf, pd⟩ := p
    intro a ha
    simp only [readActions, List.mem_cons] at ha
    rcases ha with ha | ha
    · exact ⟨pf, ha⟩
    · by_cases hd : pd = []
      · rw [if_pos hd] at ha
        exact absurd ha (List.not_mem_nil _)
      · rw [if_neg hd] at ha
        exact ih a ha

/-- Every action of the polling loop is a readiness wait or a read. -/
lemma loopActions_shape (timeoutExact : Nat) (tr : List LoopEvent) :
    ∀ a ∈ loopActions timeoutExact tr,
      (∃ fds, a = OsAction.selectWait fds) ∨ (∃ fd, a = OsAction.readFd fd) := by
  induction tr with
  | nil => simp [loopActions]
  | cons e rest ih =>
    intro a ha
    simp only [loopActions, List.mem_cons] at ha
    rcases ha with ha | ha
    · exact Or.inl ⟨_, ha⟩
    · by_cases h1 : e.ready ≠ []
      · rw [if_pos h1] at ha
        rcases List.mem_append.mp ha with ha | ha
        · exact Or.inr (readActions_shape e.ready a ha)
        · exact ih a ha
      · rw [if_neg h1] at ha
        by_cases h2 : e.pollExited = true ∨ e.now > timeoutExact
        · rw [if_pos h2] at ha
          exact absurd ha (List.not_mem_nil _)
        · rw [if_neg h2] at ha
          exact ih a ha

/-- C9: on every exit from the polling loop, tty_capture's action trace ends
with the six descriptor closes (three subordinate, three controlling) and
only then the blocking wait on the child's exit status; nothing before the
closes is a close or a wait, and the trace never contains a kill of the
child. -/
theorem c9_close_all_then_wait_never_kill (timeoutExact : Nat) (tr : List LoopEvent) :
    (∃ la, ttyCaptureActions timeoutExact tr = la ++ closeSeq ++ [OsAction.waitChild] ∧
      ∀ a ∈ la, (∀ fd, a ≠ OsAction.closeFd fd) ∧ a ≠ OsAction.waitChild) ∧
    OsAction.killChild ∉ ttyCaptureActions timeoutExact tr := by
  constructor
  · refine ⟨[OsAction.openpty, OsAction.openpty, OsAction.openpty, OsAction.spawnChild,
      OsAction.writeInput] ++ loopActions timeoutExact tr, rfl, ?_⟩
    intro a ha
    rcases List.mem_append.mp ha with ha | ha
    · simp only [List.mem_cons, List.not_mem_nil, or_false] at ha
      rcases ha with rfl | rfl | rfl | rfl | rfl <;>
        exact ⟨fun fd h => OsAction.noConfusion h, fun h => OsAction.noConfusion h⟩
    · rcases loopActions_shape timeoutExact tr a ha with ⟨fds, rfl⟩ | ⟨fd, rfl⟩
      · exact ⟨fun fd h => OsAction.noConfusion h, fun h => OsAction.noConfusion h⟩
      · exact ⟨fun fd2 h => OsAction.noConfusion h, fun h => OsAction.noConfusion h⟩
  · intro hk
    simp only [ttyCaptureActions] at hk
    rcases List.mem_append.mp hk with hk | hk
    · rcases List.mem_append.mp hk with hk | hk
      · rcases List.mem_append.mp hk with hk | hk
        · exact absurd hk (by decide)
        · rcases loopActions_shape timeoutExact tr _ hk with ⟨fds, h⟩ | ⟨fd, h⟩ <;>
            exact OsAction.noConfusion h
      · exact absurd hk (by decide)
    · exact absurd hk (by decide)

/-- C9 witness at a concrete deadline and trace. -/
theorem c9_close_all_then_wait_never_kill_witness :
    (∃ la, ttyCaptureActions 0 [] = la ++ closeSeq ++ [OsAction.waitChild] ∧
      ∀ a ∈ la, (∀ fd, a ≠ OsAction.closeFd fd) ∧ a ≠ OsAction.waitChild) ∧
    OsAction.killChild ∉ ttyCaptureActions 0 [] :=
  c9_close_all_then_wait_never_kill 0 []

example : pySplit WILDCARD (WILDCARD ++ ['a', 'b', 'c']) = [[], ['a', 'b', 'c']] := by decide
example : pySplit WILDCARD WILDCARD = [[], []] := by decide
example : pattern_match (WILDCARD ++ ['a', 'b', 'c']) ['x', 'y', 'z', 'a', 'b', 'c'] WILDCARD = some true := by decide
example : pattern_match (WILDCARD ++ ['a', 'b', 'c']) ['x', 'y', 'z', 'a', 'b', 'c', 'd'] WILDCARD = some false := by decide
example : pattern_match (['f', 'o', 'o'] ++ WILDCARD ++ ['b', 'a', 'r']) ['f', 'o', 'o', 'b', 'a', 'z', 'b', 'a', 'r'] WILDCARD = some true := by decide
example : pattern_match (['f', 'o', 'o'] ++ WILDCARD ++ ['b', 'a', 'r']) ['f', 'o', 'o', 'b', 'a', 'r'] WILDCARD = some true := by decide
example : pattern_match (['f', 'o', 'o'] ++ WILDCARD ++ ['b', 'a', 'r']) ['x', 'f', 'o', 'o', 'b', 'a', 'z', 'b', 'a', 'r'] WILDCARD = some false := by decide
example : pattern_match (['a'] ++ WILDCARD ++ ['b'] ++ WILDCARD) ['a', 'X', 'b', 'Y'] WILDCARD = some true := by decide
example : pattern_match ['a', 'b'] ['a', 'b'] [] = none := by decide
example : pattern_match [] ['a'] [] = some true := by decide
